import Mathlib

/-!
Verification of the structural-break detector core.

The signal is embedded as a list over a linear ordered field `K`
(exact arithmetic in place of IEEE floats; the pipeline layer is
instantiated at `ℝ` so that the BIC penalty's `ln` factor is exact).
The penalty-driven pruned segmenter (the spec's PrunedSegmenter,
delegated by the source to an external library) is modelled from the
spec with the default `min_segment_size = 1`; the glue code of
`find_breakpoints` (degeneracy guard, exception handler, sentinel
strip, index filter, timestamp mapping) and `prepare_signal` are
embedded directly from the source.
-/

section CoreDefs

variable {K : Type} [LinearOrderedField K]

/-- Value of the signal at index `i` (0 outside the range, never used there). -/
def sigVal (x : List K) (i : ℕ) : K := x.getD i 0

/-- CumulativeStats: prefix sum of values, `cumSum x i` is the sum over `[0, i)`. -/
def cumSum (x : List K) (i : ℕ) : K := ∑ j ∈ Finset.range i, sigVal x j

/-- CumulativeStats: prefix sum of squared values over `[0, i)`. -/
def cumSumSq (x : List K) (i : ℕ) : K := ∑ j ∈ Finset.range i, (sigVal x j) ^ 2

/-- CostModel (L2): the O(1) prefix-sum formula
`cost = sumSq[end]-sumSq[start] - (sum[end]-sum[start])^2 / (end-start)`. -/
def segCost (x : List K) (s t : ℕ) : K :=
  cumSumSq x t - cumSumSq x s - (cumSum x t - cumSum x s) ^ 2 / ((t : K) - (s : K))

/-- Mean of the segment `[s, t)`. -/
def segMean (x : List K) (s t : ℕ) : K :=
  (∑ i ∈ Finset.Ico s t, sigVal x i) / ((t : K) - (s : K))

/-- Brute-force segment cost: direct sum of squared deviations from the segment mean. -/
def bruteCost (x : List K) (s t : ℕ) : K :=
  ∑ i ∈ Finset.Ico s t, (sigVal x i - segMean x s t) ^ 2

/-- Total cost of the partition of `[lo, hi)` whose internal breakpoints are `bs`. -/
def segsCost (x : List K) : List ℕ → ℕ → ℕ → K
  | [], lo, hi => segCost x lo hi
  | b :: bs, lo, hi => segCost x lo b + segsCost x bs b hi

/-- Penalized cost of a partition of `[0, n)` with internal breakpoints `bs`:
total segment cost plus penalty times the number of breakpoints. -/
def penCost (x : List K) (pen : K) (bs : List ℕ) (n : ℕ) : K :=
  segsCost x bs 0 n + pen * (bs.length : K)

/-- `bs` is a valid list of internal breakpoints for `[0, n)`:
`0 < b_1 < ... < b_k < n` (strictly increasing, all inside the range). -/
def ValidChain (n : ℕ) (bs : List ℕ) : Prop :=
  List.Chain' (· < ·) ((0 :: bs) ++ [n])

/-- Modelled from the spec: arg-min over a candidate list, ties broken in
favour of the earliest (for a sorted candidate set: the smallest) element,
as required by the spec's determinism/tie-break rule.  The missing code is
the segmentation library's arg-min selection. -/
def argminL (f : ℕ → K) : List ℕ → ℕ
  | [] => 0
  | s :: rest =>
    match rest with
    | [] => s
    | _ :: _ => if f (argminL f rest) < f s then argminL f rest else s

/-- Transition value `F[s] + cost(s, t1) + penalty` read off an info table. -/
def transCost (x : List K) (pen : K) (info : List (K × List ℕ)) (t1 s : ℕ) : K :=
  (info.getD s (0, [])).1 + segCost x s t1 + pen

/-- The arg-min predecessor chosen at time `t1` (ties favour the smallest `s`). -/
def bestS (x : List K) (pen : K) (t1 : ℕ) (st : List (K × List ℕ) × List ℕ) : ℕ :=
  argminL (transCost x pen st.1 t1) st.2

/-- The table entry recorded for time `t1`: the optimal value
`F[t1]` together with the internal breakpoints of the partition realizing it. -/
def stepEntry (x : List K) (pen : K) (t1 : ℕ) (st : List (K × List ℕ) × List ℕ) :
    K × List ℕ :=
  (transCost x pen st.1 t1 (bestS x pen t1 st),
    if bestS x pen t1 st = 0 then []
    else (st.1.getD (bestS x pen t1 st) (0, [])).2 ++ [bestS x pen t1 st])

/-- Modelled from the spec: one step of the PrunedSegmenter (PELT) at time `t1`.
The state is the table of `(F[s], best cuts of [0,s))` pairs together with the
candidate set `R`.  Computes `F[t1] = min over s in R of F[s]+cost(s,t1)+pen`,
records the arg-min's partition, prunes every `s` with
`F[s]+cost(s,t1) > F[t1]`, and inserts `t1` into `R`.  The missing code is the
external library's PELT implementation, replaced per the spec. -/
def peltStep (x : List K) (pen : K) (t1 : ℕ) (st : List (K × List ℕ) × List ℕ) :
    List (K × List ℕ) × List ℕ :=
  (st.1 ++ [stepEntry x pen t1 st],
    st.2.filter
      (fun s => decide ((st.1.getD s (0, [])).1 + segCost x s t1 ≤ (stepEntry x pen t1 st).1))
      ++ [t1])

/-- Modelled from the spec: the PrunedSegmenter's forward pass up to time `t`,
with `F[0] = -penalty` and candidate set initialized to `{0}`
(`min_segment_size = 1`, the spec's default). -/
def peltRec (x : List K) (pen : K) : ℕ → List (K × List ℕ) × List ℕ
  | 0 => ([(-pen, [])], [0])
  | t + 1 => peltStep x pen (t + 1) (peltRec x pen t)

/-- The table entry for time `s`: `(F[s], best internal cuts of [0,s))`. -/
def Finfo (x : List K) (pen : K) (s : ℕ) : K × List ℕ :=
  (peltRec x pen s).1.getD s (0, [])

/-- Internal breakpoints of the optimal penalized partition of the whole signal. -/
def peltCuts (x : List K) (pen : K) : List ℕ := (Finfo x pen x.length).2

/-- Modelled from the spec: the segmenter's raw output, the optimal internal
breakpoints followed by the trailing sentinel `n` (end of signal), as the
library's `predict` returns them. -/
def peltBkps (x : List K) (pen : K) : List ℕ := peltCuts x pen ++ [x.length]

end CoreDefs

/-- Sentinel strip from the source: drop the last index when it equals `n`
(`if result_indices and result_indices[-1] == n_samples: result_indices[:-1]`). -/
def stripSentinel (n : ℕ) (l : List ℕ) : List ℕ :=
  if l ≠ [] ∧ l.getLast? = some n then l.dropLast else l

/-- The source's final loop: keep an index only when `idx < n_samples`
(the "safety check"); indices `≥ n` are skipped silently. -/
def mapIndices (n : ℕ) (l : List ℕ) : List ℕ := l.filter (fun i => decide (i < n))

/-- ResultMapper as the source implements it: strip the trailing sentinel,
then silently keep only indices `< n`. -/
def resultMapper (n : ℕ) (l : List ℕ) : List ℕ := mapIndices n (stripSentinel n l)

/-- Population variance of the raw signal values (numpy `std()**2` with the
default `ddof = 0`: divisor `n`, not `n-1`). -/
noncomputable def pvar (x : List ℝ) : ℝ :=
  ((x.map (fun v => (v - x.sum / (x.length : ℝ)) ^ 2)).sum) / (x.length : ℝ)

/-- The BIC-based penalty exactly as the source computes it:
`penalty = C * log(n) * sigma**2` with `sigma = std(signal)`. -/
noncomputable def penaltyBIC (x : List ℝ) (C : ℝ) : ℝ :=
  C * Real.log (x.length : ℝ) * Real.sqrt (pvar x) ^ 2

/-- The `try`/`except` around `algo.predict` plus the post-processing: an
exception from prediction makes the function return the empty list; a normal
result has its trailing sentinel stripped and its indices bound-filtered. -/
def predictPost (n : ℕ) (r : Except String (List ℕ)) : List ℕ :=
  match r with
  | Except.error _ => []
  | Except.ok idxs => mapIndices n (stripSentinel n idxs)

/-- Modelled from the spec: the prediction step delegated by the source to the
external segmentation library, returning the optimal breakpoints with the
trailing sentinel, as a fallible computation (the source wraps it in
`try`/`except`). -/
noncomputable def predictAuto (x : List ℝ) (C : ℝ) : Except String (List ℕ) :=
  Except.ok (peltBkps x (penaltyBIC x C))

/-- Breakpoint indices produced by `find_breakpoints` before date conversion:
degeneracy guard (`sigma < 1e-9` returns no breaks), prediction, exception
handling, sentinel strip and bound filter. -/
noncomputable def resultIndices (x : List ℝ) (C : ℝ) : List ℕ :=
  if Real.sqrt (pvar x) < 1 / 10 ^ 9 then []
  else predictPost x.length (predictAuto x C)

/-- The source's `find_breakpoints`: detect breakpoints in the signal and map
each surviving index to its timestamp (`signal_df.index[idx]`). -/
noncomputable def find_breakpoints {α : Type} [Inhabited α]
    (x : List ℝ) (ts : List α) (C : ℝ) : List α :=
  (resultIndices x C).map (fun i => ts.getD i default)

/-- The source's `prepare_signal` on the price column: squared log returns
`(ln (P_t / P_(t-1)))^2`, with the first (NaN) row dropped. -/
noncomputable def prepare_signal (prices : List ℝ) : List ℝ :=
  (prices.zip prices.tail).map (fun p => (Real.log (p.2 / p.1)) ^ 2)

section CostModelLemmas

variable {K : Type} [LinearOrderedField K]

theorem cumSum_sub (x : List K) {s t : ℕ} (h : s ≤ t) :
    cumSum x t - cumSum x s = ∑ i ∈ Finset.Ico s t, sigVal x i := by
  simp [cumSum, Finset.sum_Ico_eq_sub _ h]

theorem cumSumSq_sub (x : List K) {s t : ℕ} (h : s ≤ t) :
    cumSumSq x t - cumSumSq x s = ∑ i ∈ Finset.Ico s t, (sigVal x i) ^ 2 := by
  simp [cumSumSq, Finset.sum_Ico_eq_sub _ h]

theorem sum_sq_dev (x : List K) (s t : ℕ) (c : K) :
    ∑ i ∈ Finset.Ico s t, (sigVal x i - c) ^ 2 =
      (∑ i ∈ Finset.Ico s t, (sigVal x i) ^ 2)
        - 2 * c * (∑ i ∈ Finset.Ico s t, sigVal x i) + ((t - s : ℕ) : K) * c ^ 2 := by
  have h1 : ∀ i ∈ Finset.Ico s t,
      (sigVal x i - c) ^ 2 = (sigVal x i) ^ 2 - 2 * c * sigVal x i + c ^ 2 := by
    intro i _
    ring
  rw [Finset.sum_congr rfl h1, Finset.sum_add_distrib, Finset.sum_sub_distrib,
    ← Finset.mul_sum, Finset.sum_const, Nat.card_Ico, nsmul_eq_mul]

theorem segLen_pos {s t : ℕ} (h : s < t) : (0 : K) < (t : K) - (s : K) := by
  have h1 : (s : K) < (t : K) := by exact_mod_cast h
  linarith

theorem segCost_eq_bruteCost (x : List K) {s t : ℕ} (hst : s < t) :
    segCost x s t = bruteCost x s t := by
  have hle := le_of_lt hst
  have hL : (0 : K) < (t : K) - (s : K) := segLen_pos hst
  have hLne : ((t : K) - (s : K)) ≠ 0 := ne_of_gt hL
  have hcast : ((t - s : ℕ) : K) = (t : K) - (s : K) := by
    push_cast [Nat.cast_sub hle]
    ring
  rw [bruteCost, sum_sq_dev, segCost, cumSum_sub x hle, cumSumSq_sub x hle, segMean, hcast]
  field_simp
  ring

theorem segCost_le_shifted (x : List K) {s t : ℕ} (hst : s < t) (c : K) :
    segCost x s t ≤ ∑ i ∈ Finset.Ico s t, (sigVal x i - c) ^ 2 := by
  have hle := le_of_lt hst
  have hL : (0 : K) < (t : K) - (s : K) := segLen_pos hst
  have hcast : ((t - s : ℕ) : K) = (t : K) - (s : K) := by
    push_cast [Nat.cast_sub hle]
    ring
  rw [sum_sq_dev, segCost, cumSum_sub x hle, cumSumSq_sub x hle, hcast]
  set S := ∑ i ∈ Finset.Ico s t, sigVal x i with hS
  set L := (t : K) - (s : K) with hLdef
  have key : 2 * c * S - L * c ^ 2 ≤ S ^ 2 / L := by
    rw [le_div_iff₀ hL]
    nlinarith [sq_nonneg (S - c * L)]
  linarith

theorem segCost_self (x : List K) (a : ℕ) : segCost x a a = 0 := by
  simp [segCost]

theorem segCost_subadd (x : List K) {s t u : ℕ} (h1 : s < t) (h2 : t < u) :
    segCost x s t + segCost x t u ≤ segCost x s u := by
  rw [segCost_eq_bruteCost x (h1.trans h2), bruteCost,
    ← Finset.sum_Ico_consecutive _ (le_of_lt h1) (le_of_lt h2)]
  exact add_le_add (segCost_le_shifted x h1 _) (segCost_le_shifted x h2 _)

end CostModelLemmas

section ArgminLemmas

variable {K : Type} [LinearOrderedField K]

theorem argminL_mem (f : ℕ → K) : ∀ l : List ℕ, l ≠ [] → argminL f l ∈ l := by
  intro l
  induction l with
  | nil => intro h; exact absurd rfl h
  | cons s rest ih =>
    intro _
    cases rest with
    | nil => simp [argminL]
    | cons a as =>
      rw [argminL]
      by_cases hlt : f (argminL f (a :: as)) < f s
      · simp only [if_pos hlt]
        exact List.mem_cons_of_mem s (ih (by simp))
      · simp only [if_neg hlt]
        exact List.mem_cons_self s (a :: as)

theorem argminL_le (f : ℕ → K) :
    ∀ l : List ℕ, ∀ r ∈ l, f (argminL f l) ≤ f r := by
  intro l
  induction l with
  | nil => intro r hr; exact absurd hr (by simp)
  | cons s rest ih =>
    intro r hr
    cases rest with
    | nil =>
      simp only [List.mem_singleton] at hr
      subst hr
      simp [argminL]
    | cons a as =>
      rw [argminL]
      rcases List.mem_cons.mp hr with h | h
      · subst h
        by_cases hlt : f (argminL f (a :: as)) < f r
        · simp only [if_pos hlt]; exact le_of_lt hlt
        · simp only [if_neg hlt]; exact le_refl _
      · by_cases hlt : f (argminL f (a :: as)) < f s
        · simp only [if_pos hlt]; exact ih r h
        · simp only [if_neg hlt]
          exact le_trans (not_lt.mp hlt) (ih r h)

theorem argminL_tiebreak (f : ℕ → K) :
    ∀ l : List ℕ, List.Pairwise (· < ·) l →
      ∀ r ∈ l, f r ≤ f (argminL f l) → argminL f l ≤ r := by
  intro l
  induction l with
  | nil => intro _ r hr; exact absurd hr (by simp)
  | cons s rest ih =>
    intro hp r hr hfr
    have hp' := (List.pairwise_cons.mp hp).2
    have hsl := (List.pairwise_cons.mp hp).1
    cases rest with
    | nil =>
      simp only [List.mem_singleton] at hr
      subst hr
      simp [argminL]
    | cons a as =>
      rw [argminL] at hfr ⊢
      by_cases hlt : f (argminL f (a :: as)) < f s
      · simp only [if_pos hlt] at hfr ⊢
        rcases List.mem_cons.mp hr with h | h
        · subst h
          exact absurd (lt_of_lt_of_le hlt hfr) (lt_irrefl _)
        · exact ih hp' r h hfr
      · simp only [if_neg hlt]
        rcases List.mem_cons.mp hr with h | h
        · subst h; exact le_refl r
        · exact le_of_lt (hsl r h)

end ArgminLemmas

section ChainLemmas

theorem validChain_iff (n : ℕ) (bs : List ℕ) :
    ValidChain n bs ↔
      List.Pairwise (· < ·) bs ∧ (∀ i ∈ bs, 0 < i ∧ i < n) ∧ 0 < n := by
  rw [ValidChain, List.chain'_iff_pairwise]
  constructor
  · intro h
    rw [List.pairwise_append] at h
    obtain ⟨h1, _, h3⟩ := h
    rw [List.pairwise_cons] at h1
    refine ⟨h1.2, fun i hi => ⟨h1.1 i hi, ?_⟩, ?_⟩
    · exact h3 i (List.mem_cons_of_mem 0 hi) n (by simp)
    · exact h3 0 (by simp) n (by simp)
  · rintro ⟨h1, h2, h3⟩
    rw [List.pairwise_append, List.pairwise_cons]
    refine ⟨⟨fun i hi => (h2 i hi).1, h1⟩, by simp, ?_⟩
    intro a ha b hb
    simp only [List.mem_singleton] at hb
    subst hb
    rcases List.mem_cons.mp ha with h | h
    · subst h; exact h3
    · exact (h2 a h).2

theorem validChain_nil {n : ℕ} (hn : 0 < n) : ValidChain n [] := by
  rw [validChain_iff]
  exact ⟨by simp, by simp, hn⟩

theorem validChain_snoc_of {n b : ℕ} {bs : List ℕ} (h : ValidChain b bs) (hbn : b < n) :
    ValidChain n (bs ++ [b]) := by
  rw [validChain_iff] at h ⊢
  obtain ⟨h1, h2, h3⟩ := h
  refine ⟨?_, ?_, h3.trans hbn⟩
  · rw [List.pairwise_append]
    exact ⟨h1, by simp, fun a ha c hc => by
      simp only [List.mem_singleton] at hc
      subst hc
      exact (h2 a ha).2⟩
  · intro i hi
    rcases List.mem_append.mp hi with h | h
    · exact ⟨(h2 i h).1, (h2 i h).2.trans hbn⟩
    · simp only [List.mem_singleton] at h
      subst h
      exact ⟨h3, hbn⟩

theorem validChain_snoc_elim {n b : ℕ} {bs : List ℕ} (h : ValidChain n (bs ++ [b])) :
    ValidChain b bs ∧ 0 < b ∧ b < n := by
  rw [validChain_iff] at h
  obtain ⟨h1, h2, _⟩ := h
  rw [List.pairwise_append] at h1
  have hb := h2 b (by simp)
  refine ⟨?_, hb.1, hb.2⟩
  rw [validChain_iff]
  refine ⟨h1.1, ?_, hb.1⟩
  intro i hi
  exact ⟨(h2 i (List.mem_append.mpr (Or.inl hi))).1, h1.2.2 i hi b (by simp)⟩

end ChainLemmas

section PeltStructure

variable {K : Type} [LinearOrderedField K]

theorem segsCost_snoc (x : List K) :
    ∀ (bs : List ℕ) (lo b hi : ℕ),
      segsCost x (bs ++ [b]) lo hi = segsCost x bs lo b + segCost x b hi := by
  intro bs
  induction bs with
  | nil =>
    intro lo b hi
    simp [segsCost]
  | cons a as ih =>
    intro lo b hi
    simp [segsCost, ih, add_assoc]

theorem peltRec_info_length (x : List K) (pen : K) :
    ∀ t, ((peltRec x pen t).1).length = t + 1 := by
  intro t
  induction t with
  | zero => rfl
  | succ t ih => simp [peltRec, peltStep, ih]

theorem peltRec_info_stable (x : List K) (pen : K) :
    ∀ t s, s ≤ t → ((peltRec x pen t).1).getD s (0, []) = Finfo x pen s := by
  intro t
  induction t with
  | zero =>
    intro s hs
    rw [Nat.le_zero.mp hs]
    rfl
  | succ t ih =>
    intro s hs
    rcases Nat.lt_succ_iff_lt_or_eq.mp (Nat.lt_succ_of_le hs) with h | h
    · have hlt : s < ((peltRec x pen t).1).length := by
        rw [peltRec_info_length]
        omega
      show ((peltStep x pen (t + 1) (peltRec x pen t)).1).getD s (0, []) = _
      rw [peltStep]
      simp only
      rw [List.getD_append _ _ _ _ hlt]
      exact ih s (Nat.lt_succ_iff.mp (by omega))
    · subst h
      rfl

theorem peltRec_snd_le (x : List K) (pen : K) :
    ∀ t, ∀ r ∈ (peltRec x pen t).2, r ≤ t := by
  intro t
  induction t with
  | zero =>
    intro r hr
    simp only [peltRec, List.mem_singleton] at hr
    omega
  | succ t ih =>
    intro r hr
    replace hr : r ∈ (peltStep x pen (t + 1) (peltRec x pen t)).2 := hr
    rw [peltStep] at hr
    simp only at hr
    rcases List.mem_append.mp hr with h | h
    · exact Nat.le_succ_of_le (ih r (List.mem_of_mem_filter h))
    · simp only [List.mem_singleton] at h
      omega

theorem peltRec_self_mem (x : List K) (pen : K) :
    ∀ t, t ∈ (peltRec x pen t).2 := by
  intro t
  cases t with
  | zero => simp [peltRec]
  | succ t =>
    show t + 1 ∈ (peltStep x pen (t + 1) (peltRec x pen t)).2
    rw [peltStep]
    simp

theorem peltRec_snd_ne_nil (x : List K) (pen : K) (t : ℕ) :
    (peltRec x pen t).2 ≠ [] :=
  fun h => by
    have := peltRec_self_mem x pen t
    rw [h] at this
    exact absurd this (by simp)

theorem peltRec_snd_sorted (x : List K) (pen : K) :
    ∀ t, List.Pairwise (· < ·) (peltRec x pen t).2 := by
  intro t
  induction t with
  | zero => simp [peltRec]
  | succ t ih =>
    show List.Pairwise (· < ·) (peltStep x pen (t + 1) (peltRec x pen t)).2
    rw [peltStep]
    simp only
    rw [List.pairwise_append]
    refine ⟨ih.filter _, by simp, ?_⟩
    intro a ha b hb
    simp only [List.mem_singleton] at hb
    subst hb
    have := peltRec_snd_le x pen t a (List.mem_of_mem_filter ha)
    omega

end PeltStructure

section PeltInvariant

variable {K : Type} [LinearOrderedField K]

theorem Finfo_zero (x : List K) (pen : K) : Finfo x pen 0 = (-pen, []) := rfl

theorem Finfo_succ (x : List K) (pen : K) (t : ℕ) :
    Finfo x pen (t + 1) = stepEntry x pen (t + 1) (peltRec x pen t) := by
  show ((peltStep x pen (t + 1) (peltRec x pen t)).1).getD (t + 1) (0, []) = _
  rw [peltStep]
  simp only
  rw [List.getD_append_right]
  · rw [peltRec_info_length]
    simp
  · rw [peltRec_info_length]

theorem peltRec_snd_succ (x : List K) (pen : K) (t : ℕ) :
    (peltRec x pen (t + 1)).2 =
      (peltRec x pen t).2.filter
        (fun s => decide ((((peltRec x pen t).1).getD s (0, [])).1 + segCost x s (t + 1) ≤
          (stepEntry x pen (t + 1) (peltRec x pen t)).1)) ++ [t + 1] := rfl

theorem Finfo_succ_fst (x : List K) (pen : K) (t : ℕ) :
    (Finfo x pen (t + 1)).1 =
      transCost x pen (peltRec x pen t).1 (t + 1) (bestS x pen (t + 1) (peltRec x pen t)) := by
  rw [Finfo_succ]
  rfl

theorem Finfo_succ_le (x : List K) (pen : K) (t r : ℕ) (hr : r ∈ (peltRec x pen t).2) :
    (Finfo x pen (t + 1)).1 ≤ transCost x pen (peltRec x pen t).1 (t + 1) r := by
  rw [Finfo_succ_fst]
  exact argminL_le _ _ r hr

theorem transCost_eq (x : List K) (pen : K) (t : ℕ) {s : ℕ} (hs : s ≤ t) (t1 : ℕ) :
    transCost x pen (peltRec x pen t).1 t1 s = (Finfo x pen s).1 + segCost x s t1 + pen := by
  rw [transCost, peltRec_info_stable x pen t s hs]

theorem peltMaster (x : List K) (pen : K) :
    ∀ t : ℕ,
      (1 ≤ t →
        ValidChain t (Finfo x pen t).2 ∧
        (Finfo x pen t).1 =
          segsCost x (Finfo x pen t).2 0 t + pen * ((Finfo x pen t).2.length : K) ∧
        (∀ bs, ValidChain t bs →
          (Finfo x pen t).1 ≤ segsCost x bs 0 t + pen * (bs.length : K))) ∧
      (∀ u, t < u → ∀ s, s ≤ t →
        ∃ r ∈ (peltRec x pen t).2,
          (Finfo x pen r).1 + segCost x r u ≤ (Finfo x pen s).1 + segCost x s u) := by
  intro t
  induction t using Nat.strong_induction_on with
  | _ t ih =>
    cases t with
    | zero =>
      constructor
      · intro h
        omega
      · intro u _ s hs
        rw [Nat.le_zero.mp hs]
        exact ⟨0, by simp [peltRec], le_refl _⟩
    | succ t =>
      have hne := peltRec_snd_ne_nil x pen t
      have hbmem : bestS x pen (t + 1) (peltRec x pen t) ∈ (peltRec x pen t).2 :=
        argminL_mem _ _ hne
      have hble : bestS x pen (t + 1) (peltRec x pen t) ≤ t :=
        peltRec_snd_le x pen t _ hbmem
      have hdom_t := (ih t (Nat.lt_succ_self t)).2
      constructor
      · intro _
        -- achievability at t + 1
        have hcuts : (Finfo x pen (t + 1)).2 =
            if bestS x pen (t + 1) (peltRec x pen t) = 0 then []
            else (Finfo x pen (bestS x pen (t + 1) (peltRec x pen t))).2 ++
              [bestS x pen (t + 1) (peltRec x pen t)] := by
          rw [Finfo_succ, stepEntry]
          simp only
          rw [peltRec_info_stable x pen t _ hble]
        have hF1 : (Finfo x pen (t + 1)).1 =
            (Finfo x pen (bestS x pen (t + 1) (peltRec x pen t))).1 +
              segCost x (bestS x pen (t + 1) (peltRec x pen t)) (t + 1) + pen := by
          rw [Finfo_succ_fst, transCost_eq x pen t hble]
        by_cases hb0 : bestS x pen (t + 1) (peltRec x pen t) = 0
        · rw [hb0] at hF1
          rw [hb0] at hcuts
          simp only [if_pos rfl] at hcuts
          have hach : ValidChain (t + 1) (Finfo x pen (t + 1)).2 := by
            rw [hcuts]
            exact validChain_nil (Nat.succ_pos t)
          refine ⟨hach, ?_, ?_⟩
          · rw [hcuts, hF1, Finfo_zero]
            show -pen + segCost x 0 (t + 1) + pen = segCost x 0 (t + 1) + pen * ((0 : ℕ) : K)
            push_cast
            ring
          · -- optimality
            intro bs hbs
            rcases List.eq_nil_or_concat bs with hnil | ⟨as, a, hsplit⟩
            · subst hnil
              rw [hF1, Finfo_zero]
              show -pen + segCost x 0 (t + 1) + pen ≤ segCost x 0 (t + 1) + pen * ((0 : ℕ) : K)
              push_cast
              ring_nf
              exact le_refl _
            · rw [List.concat_eq_append] at hsplit
              subst hsplit
              obtain ⟨hVa, ha0, hat⟩ := validChain_snoc_elim hbs
              have hat' : a ≤ t := Nat.lt_succ_iff.mp hat
              have hopt_a := ((ih a (Nat.lt_succ_of_le hat')).1 ha0).2.2 as hVa
              obtain ⟨r, hrmem, hrle⟩ := hdom_t (t + 1) (Nat.lt_succ_self t) a hat'
              have hmin := Finfo_succ_le x pen t r hrmem
              rw [transCost_eq x pen t (peltRec_snd_le x pen t r hrmem)] at hmin
              rw [segsCost_snoc]
              push_cast [List.length_append, List.length_singleton]
              push_cast at hopt_a
              linarith
        · -- bestS ≥ 1
          have hb1 : 1 ≤ bestS x pen (t + 1) (peltRec x pen t) := Nat.one_le_iff_ne_zero.mpr hb0
          obtain ⟨hVb, hFb, _⟩ :=
            (ih (bestS x pen (t + 1) (peltRec x pen t)) (Nat.lt_succ_of_le hble)).1 hb1
          rw [if_neg hb0] at hcuts
          have hach : ValidChain (t + 1) (Finfo x pen (t + 1)).2 := by
            rw [hcuts]
            exact validChain_snoc_of hVb (Nat.lt_succ_of_le hble)
          refine ⟨hach, ?_, ?_⟩
          · rw [hcuts, hF1, hFb, segsCost_snoc]
            push_cast [List.length_append, List.length_singleton]
            ring
          · intro bs hbs
            rcases List.eq_nil_or_concat bs with hnil | ⟨as, a, hsplit⟩
            · subst hnil
              obtain ⟨r, hrmem, hrle⟩ := hdom_t (t + 1) (Nat.lt_succ_self t) 0 (Nat.zero_le t)
              have hmin := Finfo_succ_le x pen t r hrmem
              rw [transCost_eq x pen t (peltRec_snd_le x pen t r hrmem)] at hmin
              rw [Finfo_zero] at hrle
              show (Finfo x pen (t + 1)).1 ≤ segCost x 0 (t + 1) + pen * ((0 : ℕ) : K)
              push_cast
              simp only at hrle
              linarith
            · rw [List.concat_eq_append] at hsplit
              subst hsplit
              obtain ⟨hVa, ha0, hat⟩ := validChain_snoc_elim hbs
              have hat' : a ≤ t := Nat.lt_succ_iff.mp hat
              have hopt_a := ((ih a (Nat.lt_succ_of_le hat')).1 ha0).2.2 as hVa
              obtain ⟨r, hrmem, hrle⟩ := hdom_t (t + 1) (Nat.lt_succ_self t) a hat'
              have hmin := Finfo_succ_le x pen t r hrmem
              rw [transCost_eq x pen t (peltRec_snd_le x pen t r hrmem)] at hmin
              rw [segsCost_snoc]
              push_cast [List.length_append, List.length_singleton]
              push_cast at hopt_a
              linarith
      · -- domination invariant at t + 1
        intro u hu s hs
        rcases Nat.lt_succ_iff_lt_or_eq.mp (Nat.lt_succ_of_le hs) with hslt | hseq
        · have hst : s ≤ t := Nat.lt_succ_iff.mp (by omega)
          obtain ⟨r, hrmem, hrle⟩ := hdom_t u (by omega) s hst
          have hrt : r ≤ t := peltRec_snd_le x pen t r hrmem
          by_cases hkeep :
              (((peltRec x pen t).1).getD r (0, [])).1 + segCost x r (t + 1) ≤
                (stepEntry x pen (t + 1) (peltRec x pen t)).1
          · refine ⟨r, ?_, hrle⟩
            rw [peltRec_snd_succ]
            refine List.mem_append.mpr (Or.inl ?_)
            rw [List.mem_filter]
            exact ⟨hrmem, by simpa using hkeep⟩
          · -- r was pruned: t + 1 dominates it
            have hFt1 : (Finfo x pen (t + 1)).1 = (stepEntry x pen (t + 1) (peltRec x pen t)).1 := by
              rw [Finfo_succ]
            rw [peltRec_info_stable x pen t r hrt] at hkeep
            have hprune : (Finfo x pen (t + 1)).1 < (Finfo x pen r).1 + segCost x r (t + 1) := by
              rw [hFt1]
              exact lt_of_not_le hkeep
            have hsub : segCost x r (t + 1) + segCost x (t + 1) u ≤ segCost x r u := by
              rcases Nat.lt_or_ge r (t + 1) with h | h
              · exact segCost_subadd x h hu
              · omega
            refine ⟨t + 1, peltRec_self_mem x pen (t + 1), ?_⟩
            have : (Finfo x pen (t + 1)).1 + segCost x (t + 1) u <
                (Finfo x pen r).1 + segCost x r u := by
              linarith
            linarith
        · subst hseq
          exact ⟨t + 1, peltRec_self_mem x pen (t + 1), le_refl _⟩

end PeltInvariant

section PipelineLemmas

theorem pvar_nil : pvar ([] : List ℝ) = 0 := by
  simp [pvar]

theorem pvar_nonneg (x : List ℝ) : 0 ≤ pvar x := by
  apply div_nonneg
  · apply List.sum_nonneg
    intro v hv
    obtain ⟨a, _, rfl⟩ := List.mem_map.mp hv
    exact sq_nonneg _
  · exact Nat.cast_nonneg _

theorem guard_false_pos {x : List ℝ} (h : ¬Real.sqrt (pvar x) < 1 / 10 ^ 9) :
    1 ≤ x.length := by
  rcases x with _ | ⟨a, l⟩
  · exfalso
    apply h
    rw [pvar_nil, Real.sqrt_zero]
    norm_num
  · simp

theorem predictPost_ok (n : ℕ) (l : List ℕ) :
    predictPost n (Except.ok l) = mapIndices n (stripSentinel n l) := rfl

theorem stripSentinel_concat (n : ℕ) (l : List ℕ) :
    stripSentinel n (l ++ [n]) = l := by
  rw [stripSentinel, if_pos ⟨by simp, by rw [List.getLast?_concat]⟩, List.dropLast_concat]

end PipelineLemmas

/-- C1: for every signal and penalty, the automatic (penalty-driven) pruned
segmentation returns internal breakpoints forming a valid partition of
`[0, n)` whose total segment cost plus `penalty * number_of_breakpoints` is
minimal over all partitions with any number of breakpoints; no break count
is supplied by the caller. -/
theorem pelt_auto_minimizes {K : Type} [LinearOrderedField K] (x : List K) (pen : K)
    (hn : 1 ≤ x.length) :
    ValidChain x.length (peltCuts x pen) ∧
      ∀ bs, ValidChain x.length bs →
        penCost x pen (peltCuts x pen) x.length ≤ penCost x pen bs x.length := by
  obtain ⟨hv, heq, hopt⟩ := (peltMaster x pen x.length).1 hn
  refine ⟨hv, fun bs hbs => ?_⟩
  show segsCost x (peltCuts x pen) 0 x.length + pen * ((peltCuts x pen).length : K) ≤
    segsCost x bs 0 x.length + pen * (bs.length : K)
  rw [show peltCuts x pen = (Finfo x pen x.length).2 from rfl, ← heq]
  exact hopt bs hbs

/-- Witness for C1 at the concrete signal `[0, 1]` with penalty `1`. -/
theorem pelt_auto_minimizes_witness :
    1 ≤ ([0, 1] : List ℚ).length ∧
      (ValidChain ([0, 1] : List ℚ).length (peltCuts ([0, 1] : List ℚ) 1) ∧
        ∀ bs, ValidChain ([0, 1] : List ℚ).length bs →
          penCost ([0, 1] : List ℚ) 1 (peltCuts ([0, 1] : List ℚ) 1) ([0, 1] : List ℚ).length ≤
            penCost ([0, 1] : List ℚ) 1 bs ([0, 1] : List ℚ).length) :=
  ⟨by decide, pelt_auto_minimizes ([0, 1] : List ℚ) 1 (by decide)⟩

/-- C2: for all `0 ≤ start < end ≤ n`, the O(1) prefix-sum L2 cost
`sumSq[end]-sumSq[start] - (sum[end]-sum[start])^2/(end-start)` equals the
brute-force sum of squared deviations from the segment mean (exactly, in the
exact-arithmetic embedding). -/
theorem cost_formula_matches_brute {K : Type} [LinearOrderedField K] (x : List K)
    (s t : ℕ) (h1 : s < t) (_h2 : t ≤ x.length) :
    segCost x s t = bruteCost x s t :=
  segCost_eq_bruteCost x h1

/-- Witness for C2 at the signal `[1, 2, 4]` on the segment `[0, 3)`. -/
theorem cost_formula_matches_brute_witness :
    (0 < 3 ∧ 3 ≤ ([1, 2, 4] : List ℚ).length) ∧
      segCost ([1, 2, 4] : List ℚ) 0 3 = bruteCost ([1, 2, 4] : List ℚ) 0 3 :=
  ⟨⟨by decide, by decide⟩,
    cost_formula_matches_brute ([1, 2, 4] : List ℚ) 0 3 (by decide) (by decide)⟩

/-- C3: the penalty the source computes, `C * log(n) * std(signal)**2`, equals
`C * ln(n) * variance(signal)` with `variance` the population variance of the
raw signal values (divisor `n`, numpy's default `ddof = 0`); proved for every
signal and multiplier, in particular whenever the degeneracy guard passes. -/
theorem penalty_is_bic_population_variance (x : List ℝ) (C : ℝ) :
    penaltyBIC x C = C * Real.log (x.length : ℝ) * pvar x := by
  rw [penaltyBIC, Real.sq_sqrt (pvar_nonneg x)]

/-- C4: for every input, the index sequence handed back by the detector is
strictly increasing with every index `< n`, and the empty sequence is a
possible output (e.g. on the empty signal). -/
theorem segmentation_indices_valid (x : List ℝ) (C : ℝ) :
    List.Chain' (· < ·) (resultIndices x C) ∧
      (∀ i ∈ resultIndices x C, i < x.length) ∧
      resultIndices ([] : List ℝ) C = [] := by
  have hnil : resultIndices ([] : List ℝ) C = [] := by
    rw [resultIndices, if_pos]
    rw [pvar_nil, Real.sqrt_zero]
    norm_num
  by_cases hg : Real.sqrt (pvar x) < 1 / 10 ^ 9
  · rw [resultIndices, if_pos hg]
    exact ⟨by simp, by simp, hnil⟩
  · have hn : 1 ≤ x.length := guard_false_pos hg
    obtain ⟨hv, -, -⟩ := (peltMaster x (penaltyBIC x C) x.length).1 hn
    rw [validChain_iff] at hv
    obtain ⟨hpw, hbnd, -⟩ := hv
    have hres : resultIndices x C = peltCuts x (penaltyBIC x C) := by
      rw [resultIndices, if_neg hg, predictAuto, predictPost_ok, peltBkps,
        stripSentinel_concat, mapIndices, List.filter_eq_self.mpr]
      intro i hi
      simpa using (hbnd i hi).2
    rw [hres]
    refine ⟨?_, ?_, hnil⟩
    · rw [List.chain'_iff_pairwise]
      exact hpw
    · intro i hi
      exact (hbnd i hi).2

/-- Counterexample for C5: at `n = 3` with remaining indices `[1, 5]` the
source's mapping loop silently drops the out-of-range index `5` and returns
the normal result `[1]`; no `IndexOutOfRange` failure exists or occurs. -/
theorem resultMapper_silent_drop_example : resultMapper 3 [1, 5] = [1] := by decide

/-- C5 (amended): the result-mapping step strips the trailing sentinel `n`,
and silently skips (rather than failing on) any remaining index `≥ n`; every
index it returns is `< n`. -/
theorem resultMapper_bounds :
    (∀ n l, ∀ i ∈ resultMapper n l, i < n) ∧
      ∀ n (bs : List ℕ), resultMapper n (bs ++ [n]) = bs.filter (fun i => decide (i < n)) := by
  constructor
  · intro n l i hi
    have := List.of_mem_filter hi
    simpa using this
  · intro n bs
    rw [resultMapper, stripSentinel_concat, mapIndices]

/-- Witness for C5's amended theorem at `n = 3`, input `[2, 5]`, index `2`. -/
theorem resultMapper_bounds_witness : (2 : ℕ) < 3 :=
  resultMapper_bounds.1 3 [2, 5] 2 (by decide)

/-- C6: when the signal's standard deviation is below the fixed tolerance
`1e-9` (e.g. a constant signal), automatic segmentation returns the empty
result — zero breaks — instead of an error. -/
theorem degenerate_signal_returns_empty {α : Type} [Inhabited α] (x : List ℝ)
    (ts : List α) (C : ℝ) (h : Real.sqrt (pvar x) < 1 / 10 ^ 9) :
    find_breakpoints x ts C = [] := by
  rw [find_breakpoints, resultIndices, if_pos h]
  rfl

/-- Witness for C6 at the constant signal `[5, 5]`. -/
theorem degenerate_signal_returns_empty_witness :
    Real.sqrt (pvar [(5 : ℝ), 5]) < 1 / 10 ^ 9 ∧
      find_breakpoints [(5 : ℝ), 5] [(0 : ℕ), 1] 3 = [] := by
  have hv : pvar [(5 : ℝ), 5] = 0 := by
    norm_num [pvar]
  have h : Real.sqrt (pvar [(5 : ℝ), 5]) < 1 / 10 ^ 9 := by
    rw [hv, Real.sqrt_zero]
    norm_num
  exact ⟨h, degenerate_signal_returns_empty [(5 : ℝ), 5] [(0 : ℕ), 1] 3 h⟩

/-- Counterexample for C7: the length-1 signal `[5]` is invalid per the spec
(`n < 2 * min_segment_size`), yet the call returns the normal empty result
rather than failing with a typed `InvalidInput`; no validation runs at all. -/
theorem short_signal_returns_empty_not_error :
    find_breakpoints [(5 : ℝ)] [(0 : ℕ)] 3 = [] := by
  have hv : pvar [(5 : ℝ)] = 0 := by
    norm_num [pvar]
  rw [find_breakpoints, resultIndices, if_pos]
  · rfl
  · rw [hv, Real.sqrt_zero]
    norm_num

/-- C7 (amended): the entry point performs no input validation and has no
typed-error channel; in particular a too-short signal (length `≤ 1`, hence
zero variance) silently yields the empty list via the degeneracy guard. -/
theorem no_validation_short_input_empty {α : Type} [Inhabited α] (x : List ℝ)
    (ts : List α) (C : ℝ) (h : x.length ≤ 1) :
    find_breakpoints x ts C = [] := by
  rcases x with _ | ⟨a, l⟩
  · rw [find_breakpoints, resultIndices, if_pos]
    · rfl
    · rw [pvar_nil, Real.sqrt_zero]
      norm_num
  · rcases l with _ | ⟨b, l'⟩
    · have hv : pvar [a] = 0 := by
        norm_num [pvar]
      rw [find_breakpoints, resultIndices, if_pos]
      · rfl
      · rw [hv, Real.sqrt_zero]
        norm_num
    · simp at h

/-- Witness for C7's amended theorem at the length-1 signal `[7]`. -/
theorem no_validation_short_input_empty_witness :
    [(7 : ℝ)].length ≤ 1 ∧ find_breakpoints [(7 : ℝ)] [(0 : ℕ)] 3 = [] :=
  ⟨by norm_num, no_validation_short_input_empty [(7 : ℝ)] [(0 : ℕ)] 3 (by norm_num)⟩

/-- C8: the computation is a pure function of its inputs (two calls with
identical signal, timestamps and configuration give identical results), and
the arg-min over a sorted candidate set breaks ties by the smallest index. -/
theorem deterministic_smallest_tiebreak :
    (∀ (x : List ℝ) (ts : List ℕ) (C : ℝ),
        find_breakpoints x ts C = find_breakpoints x ts C) ∧
      ∀ (f : ℕ → ℚ) (l : List ℕ), l ≠ [] → List.Pairwise (· < ·) l →
        argminL f l ∈ l ∧ (∀ r ∈ l, f (argminL f l) ≤ f r) ∧
          ∀ r ∈ l, f r = f (argminL f l) → argminL f l ≤ r := by
  refine ⟨fun x ts C => rfl, fun f l hne hp => ⟨argminL_mem f l hne, argminL_le f l, ?_⟩⟩
  intro r hr hfr
  exact argminL_tiebreak f l hp r hr (le_of_eq hfr)

/-- Witness for C8's tie-break clause on the sorted candidate list `[1, 2]`
with a constant objective (an exact tie): the smallest index `1` is chosen. -/
theorem deterministic_smallest_tiebreak_witness :
    argminL (fun _ => (0 : ℚ)) [1, 2] ∈ [1, 2] ∧
      (∀ r ∈ [1, 2], (fun _ => (0 : ℚ)) (argminL (fun _ => (0 : ℚ)) [1, 2]) ≤
        (fun _ => (0 : ℚ)) r) ∧
      ∀ r ∈ [1, 2], (fun _ => (0 : ℚ)) r = (fun _ => (0 : ℚ)) (argminL (fun _ => (0 : ℚ)) [1, 2]) →
        argminL (fun _ => (0 : ℚ)) [1, 2] ≤ r :=
  deterministic_smallest_tiebreak.2 (fun _ => (0 : ℚ)) [1, 2] (by decide) (by decide)

/-- C9: every value of the prepared signal is nonnegative (each is the square
of a log return), and the first row — the one the one-step shift makes NaN —
is dropped, so the output has exactly `n - 1` rows and no undefined entries. -/
theorem prepare_signal_nonneg_and_dropped (prices : List ℝ) :
    (∀ v ∈ prepare_signal prices, 0 ≤ v) ∧
      (prepare_signal prices).length = prices.length - 1 := by
  constructor
  · intro v hv
    obtain ⟨p, -, rfl⟩ := List.mem_map.mp hv
    exact sq_nonneg _
  · rw [prepare_signal, List.length_map, List.length_zip, List.length_tail]
    exact min_eq_right (Nat.sub_le _ _)

/-- C10: an exception raised by the prediction step is caught and the function
returns the empty list (so the caller always receives a plain, possibly empty,
list and no exception propagates). -/
theorem predict_error_swallowed :
    ∀ (n : ℕ) (e : String) (ts : List ℕ),
      predictPost n (Except.error e) = [] ∧
        (predictPost n (Except.error e)).map (fun i => ts.getD i 0) = [] :=
  fun _ _ _ => ⟨rfl, rfl⟩

/-- Witness for C4 at the concrete empty signal: the empty output is realized. -/
theorem segmentation_indices_valid_witness :
    resultIndices ([] : List ℝ) 3 = [] :=
  (segmentation_indices_valid ([] : List ℝ) 3).2.2

/-- Witness for C9 at the concrete price series `[1, 2]`: one row is dropped. -/
theorem prepare_signal_nonneg_and_dropped_witness :
    (prepare_signal [(1 : ℝ), 2]).length = [(1 : ℝ), 2].length - 1 :=
  (prepare_signal_nonneg_and_dropped [(1 : ℝ), 2]).2
